import Mathlib

/-!
Verification of the core of the `seq-input-gelf` GELF→CLEF gateway.

The development shallowly embeds the Rust sources:

* `sqelf/src/receive.rs` — the chunked-GELF reassembler (`Gelf::decode`,
  `Gelf::gc`, `Gelf::push`, `ChunkHeader::get`, `Message`, `Compression`);
* `sqelf/src/process/mod.rs` — the GELF→CLEF transformer (`to_clef`,
  `override_value`, `find_first`) together with the `clef::Message` data
  model it manipulates;
* `sqelf/src/process/clef.rs` — `Timestamp::from_float`;
* `sqelf/src/server/tcp.rs` — the NUL-delimited TCP frame splitter
  (`Decode::decode`, `Decode::decode_eof`);
* the `MemRead` implementation for messages (`bytes`, `into_reader`,
  `ChunkRead::read`).

Bytes are modelled as `List Nat` (each element a byte value), hash maps as
association lists with lookup semantics, B-tree maps as key-sorted
association lists, and wall-clock time as an explicit `now` parameter
threaded through the functions that call `SystemTime::now()` in the
source.  `f64` timestamps are modelled as exact rationals; theorems about
them are instantiated only at values for which the floating-point
computation in the source is exact.
-/

namespace Receive

/-- A byte buffer (`bytes::Bytes`); each element is one byte value. -/
abbrev Bytes := List Nat

/-- `receive::Config`. -/
structure Config where
  incomplete_capacity : Nat
  max_chunks_per_message : Nat
  incomplete_timeout_ms : Nat
deriving DecidableEq, Repr

/-- `Config::default()`. -/
def Config.default : Config :=
  { incomplete_capacity := 1024
    max_chunks_per_message := 128
    incomplete_timeout_ms := 5 * 1000 }

/-- `UniqueTimestamp(Duration, u64)`: milliseconds since the epoch paired
with the tiebreak counter, compared lexicographically. -/
abbrev UTimestamp := Nat × Nat

/-- Strict lexicographic order on `UniqueTimestamp` (the derived `Ord`). -/
def utLt (a b : UTimestamp) : Bool :=
  a.1 < b.1 || (a.1 = b.1 && a.2 < b.2)

/-- The sorted chunk set of one partial message (`Chunks`): the
`expected_total` declared count and the `BTreeMap<u8, Bytes>` of payloads,
kept as a key-sorted association list. -/
structure Chunks where
  expected_total : Nat
  inner : List (Nat × Bytes)
deriving DecidableEq, Repr

/-- `BTreeMap::insert` on a key-sorted association list: replaces the
value of an existing key, otherwise inserts at the sorted position. -/
def btInsert (l : List (Nat × Bytes)) (k : Nat) (v : Bytes) : List (Nat × Bytes) :=
  match l with
  | [] => [(k, v)]
  | (k1, v1) :: t =>
    if k < k1 then (k, v) :: (k1, v1) :: t
    else if k = k1 then (k, v) :: t
    else (k1, v1) :: btInsert t k v

/-- `BTreeMap::get`-style lookup. -/
def btLookup (l : List (Nat × Bytes)) (k : Nat) : Option Bytes :=
  match l with
  | [] => none
  | (k1, v1) :: t => if k = k1 then some v1 else btLookup t k

/-- `Chunks::new(expected_total, chunk)`. -/
def Chunks.new (expected_total : Nat) (seq : Nat) (bytes : Bytes) : Chunks :=
  { expected_total, inner := [(seq, bytes)] }

/-- `Chunks::insert(chunk)`. -/
def Chunks.insert (c : Chunks) (seq : Nat) (bytes : Bytes) : Chunks :=
  { c with inner := btInsert c.inner seq bytes }

/-- `Chunks::is_complete()`. -/
def Chunks.is_complete (c : Chunks) : Bool :=
  c.expected_total = c.inner.length

/-- The mutable state of the `Gelf` decoder: the id-indexed table
(`ById`, a `HashMap` modelled as an association list), the arrival index
(`ByArrival.chunks`, a `BTreeMap` modelled as an association list) and the
arrival tiebreak counter. -/
structure GelfState where
  by_id : List (Nat × (Chunks × UTimestamp))
  by_arrival : List (UTimestamp × Nat)
  counter : Nat
deriving DecidableEq, Repr

/-- `Gelf::new`: both tables empty, counter zero. -/
def GelfState.empty : GelfState := { by_id := [], by_arrival := [], counter := 0 }

/-- `HashMap::get`-style lookup in the id table. -/
def idLookup (l : List (Nat × (Chunks × UTimestamp))) (k : Nat) :
    Option (Chunks × UTimestamp) :=
  match l with
  | [] => none
  | (k1, v1) :: t => if k = k1 then some v1 else idLookup t k

/-- Replace the value stored under an existing key of the id table. -/
def idReplace (l : List (Nat × (Chunks × UTimestamp))) (k : Nat)
    (v : Chunks × UTimestamp) : List (Nat × (Chunks × UTimestamp)) :=
  match l with
  | [] => []
  | (k1, v1) :: t => if k = k1 then (k, v) :: t else (k1, v1) :: idReplace t k v

/-- `Compression`. -/
inductive Compression
  | gzip
  | zlib
deriving DecidableEq, Repr

/-- `Compression::detect` on the two peeked magic bytes. -/
def Compression.detect (h0 h1 : Nat) : Option Compression :=
  if h0 = 0x1f && h1 = 0x8b then some .gzip
  else if h0 = 0x78 && (h0 * 256 + h1) % 31 = 0 then some .zlib
  else none

/-- `Message::peek_magic_bytes`: the first two bytes, if present. -/
def peekMagicBytes (src : Bytes) : Option (Nat × Nat) :=
  match src with
  | b0 :: b1 :: _ => some (b0, b1)
  | _ => none

/-- A raw GELF message (`Message` / `MessageInner`). -/
inductive Message
  | single (compression : Option Compression) (bytes : Bytes)
  | chunked (chunks : List Bytes)
deriving DecidableEq, Repr

/-- `Message::single`: no message from an empty buffer. -/
def Message.mkSingle (compression : Option Compression) (src : Bytes) :
    Option Message :=
  if src.length = 0 then none else some (.single compression src)

/-- `Message::chunked`: no message from an empty chunk list. -/
def Message.mkChunked (chunks : List Bytes) : Option Message :=
  if chunks.length = 0 then none else some (.chunked chunks)

/-- The parsed 12-byte chunk header (`ChunkHeader`). -/
structure ChunkHeader where
  id : Nat
  seq_num : Nat
  seq_count : Nat
deriving DecidableEq, Repr

/-- Big-endian accumulation of a byte list into a natural number
(`Buf::get_u64_be`). -/
def beNat (l : Bytes) : Nat := l.foldl (fun a b => a * 256 + b) 0

/-- `ChunkHeader::get`: fails on a buffer shorter than 12 bytes and on a
sequence number not below the sequence count; on success returns the
header and the buffer after the header (`split_to(SIZE)`). -/
def ChunkHeader.get (buf : Bytes) : Except String (ChunkHeader × Bytes) :=
  if buf.length < 12 then
    .error "buffer is too small to contain a valid chunk header"
  else
    let id := beNat ((buf.drop 2).take 8)
    let seq_num := (buf.drop 10).headD 0
    let seq_count := (buf.drop 11).headD 0
    if seq_num ≥ seq_count then
      .error ("expected " ++ toString seq_count ++ " chunks but got " ++ toString seq_num)
    else
      .ok ({ id, seq_num, seq_count }, buf.drop 12)

/-- `Gelf::gc`, with `SystemTime::now()` passed in as `now` (milliseconds
since the epoch): a full flush of both tables when the id table has
reached `incomplete_capacity`, then removal of every entry whose arrival
key is older than `now - incomplete_timeout_ms`.  The subtraction is
truncated at zero (the source errors out for instants earlier than the
timeout after the epoch, a regime no claim touches). -/
def gc (cfg : Config) (now : Nat) (st : GelfState) : GelfState :=
  let st :=
    if st.by_id.length ≥ cfg.incomplete_capacity then
      { st with by_id := [], by_arrival := [] }
    else st
  let since : UTimestamp := (now - cfg.incomplete_timeout_ms, 0)
  let removedIds := (st.by_arrival.filter (fun a => utLt a.1 since)).map (·.2)
  { st with
    by_id := st.by_id.filter (fun e => decide (e.1 ∉ removedIds))
    by_arrival := st.by_arrival.filter (fun a => !utLt a.1 since) }

/-- `Gelf::push`: insert one chunk, creating the entry on first arrival
and emitting the completed message (payloads in ascending sequence order)
when the declared total is reached. -/
def push (now : Nat) (st : GelfState) (header : ChunkHeader) (chunk : Bytes) :
    Except String (Option Message) × GelfState :=
  match idLookup st.by_id header.id with
  | none =>
    let ts : UTimestamp := (now, st.counter)
    (.ok none,
      { by_id := st.by_id ++ [(header.id, (Chunks.new header.seq_count header.seq_num chunk, ts))]
        by_arrival := st.by_arrival ++ [(ts, header.id)]
        counter := (st.counter + 1) % 2 ^ 64 })
  | some (chunks, arrival) =>
    if chunks.expected_total ≠ header.seq_count then
      (.error ("chunk expected total " ++ toString header.seq_count ++
        " is not consistent with previous value " ++ toString chunks.expected_total), st)
    else
      let chunks := chunks.insert header.seq_num chunk
      if chunks.is_complete then
        (.ok (Message.mkChunked (chunks.inner.map (·.2))),
          { st with
            by_id := st.by_id.filter (fun e => decide (e.1 ≠ header.id))
            by_arrival := st.by_arrival.filter (fun a => decide (a.1 ≠ arrival)) })
      else
        (.ok none, { st with by_id := idReplace st.by_id header.id (chunks, arrival) })

/-- `Gelf::chunked`: garbage-collect, parse the header, special-case a
single-chunk message, reject over-declared chunk counts, otherwise push. -/
def chunked (cfg : Config) (now : Nat) (st : GelfState) (src : Bytes) :
    Except String (Option Message) × GelfState :=
  let st := gc cfg now st
  match ChunkHeader.get src with
  | .error e => (.error e, st)
  | .ok (header, rest) =>
    if header.seq_num = 0 ∧ header.seq_count = 1 then
      (.ok (Message.mkSingle ((peekMagicBytes rest).bind
        (fun m => Compression.detect m.1 m.2)) rest), st)
    else if header.seq_count > cfg.max_chunks_per_message then
      (.error ("message expects " ++ toString header.seq_count ++
        " chunks but the max allowed is " ++ toString cfg.max_chunks_per_message), st)
    else
      push now st header rest

/-- `Gelf::decode`: route a datagram by its magic bytes. -/
def decode (cfg : Config) (now : Nat) (st : GelfState) (src : Bytes) :
    Except String (Option Message) × GelfState :=
  let magic := peekMagicBytes src
  if magic = some (0x1e, 0x0f) then chunked cfg now st src
  else
    (.ok (Message.mkSingle (magic.bind (fun m => Compression.detect m.1 m.2)) src), st)

/-- The on-the-wire form of one chunk datagram: the two magic bytes, the
8-byte big-endian message id, the sequence number and count bytes, and
the payload. -/
def chunkDatagram (idb : Bytes) (seq count : Nat) (payload : Bytes) : Bytes :=
  0x1e :: 0x0f :: (idb ++ seq :: count :: payload)

/-- The message id `Gelf` parses out of a chunk datagram. -/
def datagramId (src : Bytes) : Nat := beNat ((src.drop 2).take 8)

/-- Feed a list of datagrams through `Gelf::decode` in order, collecting
each call's result and the final state. -/
def feed (cfg : Config) (now : Nat) (st : GelfState) :
    List Bytes → List (Except String (Option Message)) × GelfState
  | [] => ([], st)
  | d :: ds =>
    let (r, st1) := decode cfg now st d
    let (rs, st2) := feed cfg now st1 ds
    (r :: rs, st2)

end Receive

namespace Receive

/-- The state `Gelf::gc` leaves behind is exactly the input state when the
id table is below capacity and no arrival key is expired. -/
theorem gc_eq_self (cfg : Config) (now : Nat) (st : GelfState)
    (hcap : st.by_id.length < cfg.incomplete_capacity)
    (hfresh : ∀ a ∈ st.by_arrival,
      utLt a.1 (now - cfg.incomplete_timeout_ms, 0) = false) :
    gc cfg now st = st := by
  have hrem : st.by_arrival.filter
      (fun a => utLt a.1 (now - cfg.incomplete_timeout_ms, 0)) = [] := by
    rw [List.filter_eq_nil_iff]
    intro a ha
    simp [hfresh a ha]
  have h2 : st.by_arrival.filter
      (fun a => !utLt a.1 (now - cfg.incomplete_timeout_ms, 0)) = st.by_arrival := by
    rw [List.filter_eq_self]
    intro a ha
    simp [hfresh a ha]
  have hcap2 : ¬ st.by_id.length ≥ cfg.incomplete_capacity := by omega
  simp [gc, if_neg hcap2, hrem, h2]

end Receive

namespace Receive

/-- On a successful parse, the header's id is the big-endian value of
bytes 2..10 of the datagram. -/
theorem ChunkHeader.get_id {buf : Bytes} {h : ChunkHeader} {r : Bytes}
    (hk : ChunkHeader.get buf = .ok (h, r)) :
    h.id = beNat ((buf.drop 2).take 8) := by
  simp only [ChunkHeader.get] at hk
  split at hk
  · exact absurd hk (by simp)
  · split at hk
    · exact absurd hk (by simp)
    · cases hk
      rfl

end Receive

open Receive in
/-- C10: `Gelf::decode` returns `Ok(None)` — no message and no error —
both for a datagram that is a valid chunk header with sequence number 0,
count 1 and an empty payload, and for an entirely empty datagram:
`Message::single` never yields a message from an empty buffer. -/
theorem spec_C10_empty_payload_ok_none (cfg : Config) (now : Nat) (st : GelfState)
    (a0 a1 a2 a3 a4 a5 a6 a7 : Nat) :
    (decode cfg now st (chunkDatagram [a0, a1, a2, a3, a4, a5, a6, a7] 0 1 [])).1 =
      .ok none ∧
    (decode cfg now st []).1 = .ok none :=
  ⟨rfl, rfl⟩

open Receive in
/-- C3: when the id table already holds at least `incomplete_capacity`
partial messages and a chunk-magic datagram arrives, `Gelf::decode`
flushes every prior entry from both indices: afterwards each table holds
at most one entry, and any remaining entry belongs to the incoming
datagram's message id. -/
theorem spec_C3_capacity_full_flush (cfg : Config) (now : Nat) (st : GelfState)
    (rest : Bytes) (hcap : st.by_id.length ≥ cfg.incomplete_capacity) :
    (decode cfg now st (0x1e :: 0x0f :: rest)).2.by_id.length ≤ 1 ∧
    (decode cfg now st (0x1e :: 0x0f :: rest)).2.by_arrival.length ≤ 1 ∧
    (∀ e ∈ (decode cfg now st (0x1e :: 0x0f :: rest)).2.by_id,
      e.1 = datagramId (0x1e :: 0x0f :: rest)) ∧
    (∀ a ∈ (decode cfg now st (0x1e :: 0x0f :: rest)).2.by_arrival,
      a.2 = datagramId (0x1e :: 0x0f :: rest)) := by
  have hgc : gc cfg now st = { by_id := [], by_arrival := [], counter := st.counter } := by
    simp [gc, if_pos hcap]
  have hdec : decode cfg now st (0x1e :: 0x0f :: rest) =
      chunked cfg now st (0x1e :: 0x0f :: rest) := by
    simp [decode, peekMagicBytes]
  rw [hdec]
  unfold chunked
  rw [hgc]
  rcases hget : ChunkHeader.get (0x1e :: 0x0f :: rest) with e | hr
  · simp
  · obtain ⟨header, r⟩ := hr
    have hid : header.id = datagramId (0x1e :: 0x0f :: rest) :=
      ChunkHeader.get_id hget
    dsimp only
    by_cases h1 : header.seq_num = 0 ∧ header.seq_count = 1
    · simp [h1]
    · rw [if_neg h1]
      by_cases h2 : header.seq_count > cfg.max_chunks_per_message
      · simp [h2]
      · rw [if_neg h2]
        simp [push, idLookup, hid]

namespace Receive

/-- A one-entry configuration used to exhibit the capacity flush on the
error path. -/
def cexCfg : Config :=
  { incomplete_capacity := 1, max_chunks_per_message := 128, incomplete_timeout_ms := 5000 }

/-- A reassembly state holding one partial message under id 99. -/
def cexSt : GelfState :=
  { by_id := [(99, ({ expected_total := 3, inner := [(0, [49])] }, (0, 0)))]
    by_arrival := [((0, 0), 99)]
    counter := 1 }

end Receive

open Receive in
/-- C7 counterexample: with the table at capacity, a chunk-magic datagram
that is too short to hold a header makes `Gelf::decode` return an error,
but the reassembly state is *not* untouched — `gc` has already flushed
both indices before the header was parsed. -/
theorem spec_C7_counterexample :
    (∃ e, (decode cexCfg 0 cexSt [0x1e, 0x0f]).1 = .error e) ∧
    (decode cexCfg 0 cexSt [0x1e, 0x0f]).2 ≠ cexSt := by
  constructor
  · exact ⟨_, rfl⟩
  · decide

open Receive in
/-- C7 (amended): a chunk-magic datagram that is too short for the
12-byte header, or whose sequence number is not below its sequence count,
makes `Gelf::decode` return an error without emitting a message and — as
long as the table is below `incomplete_capacity` and no entry has passed
the timeout deadline, so that the preceding `gc` is a no-op — leaves the
reassembly state (both indices and the counter) exactly as it was. -/
theorem spec_C7_malformed_chunk_state (cfg : Config) (now : Nat) (st : GelfState)
    (rest : Bytes)
    (hcap : st.by_id.length < cfg.incomplete_capacity)
    (hfresh : ∀ a ∈ st.by_arrival,
      utLt a.1 (now - cfg.incomplete_timeout_ms, 0) = false)
    (hbad : rest.length < 10 ∨ (rest.drop 9).headD 0 ≤ (rest.drop 8).headD 0) :
    ∃ e, decode cfg now st (0x1e :: 0x0f :: rest) = (.error e, st) := by
  have hdec : decode cfg now st (0x1e :: 0x0f :: rest) =
      chunked cfg now st (0x1e :: 0x0f :: rest) := by
    simp [decode, peekMagicBytes]
  rw [hdec]
  unfold chunked
  rw [gc_eq_self cfg now st hcap hfresh]
  by_cases hlen : (0x1e :: 0x0f :: rest).length < 12
  · refine ⟨"buffer is too small to contain a valid chunk header", ?_⟩
    have h12 : rest.length + 1 + 1 < 12 := by simpa using hlen
    simp [ChunkHeader.get, h12]
  · have h12 : ¬ (rest.length + 1 + 1 < 12) := by simpa using hlen
    have hseq : (rest.drop 9).headD 0 ≤ (rest.drop 8).headD 0 := by
      rcases hbad with h | h
      · exact absurd (by simp; omega) hlen
      · exact h
    have hseq2 : rest[9]?.getD 0 ≤ rest[8]?.getD 0 := by
      simpa using hseq
    refine ⟨"expected " ++ toString (rest[9]?.getD 0) ++ " chunks but got " ++
      toString (rest[8]?.getD 0), ?_⟩
    simp [ChunkHeader.get, h12, hseq2]

namespace Receive

/-- Keys of a chunk map are strictly increasing. -/
def btSorted (l : List (Nat × Bytes)) : Prop :=
  l.Pairwise (fun a b => a.1 < b.1)

theorem btLookup_insert (l : List (Nat × Bytes)) (k : Nat) (v : Bytes) (k2 : Nat) :
    btLookup (btInsert l k v) k2 = if k2 = k then some v else btLookup l k2 := by
  induction l with
  | nil =>
    simp [btInsert, btLookup]
  | cons hd t ih =>
    obtain ⟨k1, v1⟩ := hd
    by_cases h1 : k < k1
    · rw [btInsert, if_pos h1]
      rfl
    · rw [btInsert, if_neg h1]
      by_cases h2 : k = k1
      · subst h2
        rw [if_pos rfl]
        simp only [btLookup]
        by_cases h3 : k2 = k <;> simp [h3]
      · rw [if_neg h2]
        simp only [btLookup]
        by_cases h3 : k2 = k1
        · subst h3
          rw [if_pos rfl, if_neg (by omega), if_pos rfl]
        · rw [if_neg h3, ih, if_neg h3]

theorem mem_btInsert {l : List (Nat × Bytes)} {k : Nat} {v : Bytes} {e : Nat × Bytes}
    (h : e ∈ btInsert l k v) : e = (k, v) ∨ e ∈ l := by
  induction l with
  | nil => simpa [btInsert] using h
  | cons hd t ih =>
    obtain ⟨k1, v1⟩ := hd
    by_cases h1 : k < k1
    · rw [btInsert, if_pos h1] at h
      rcases List.mem_cons.mp h with h | h
      · exact Or.inl h
      · exact Or.inr h
    · rw [btInsert, if_neg h1] at h
      by_cases h2 : k = k1
      · rw [if_pos h2] at h
        rcases List.mem_cons.mp h with h | h
        · exact Or.inl h
        · exact Or.inr (List.mem_cons_of_mem _ h)
      · rw [if_neg h2] at h
        rcases List.mem_cons.mp h with h | h
        · exact Or.inr (by simp [h])
        · rcases ih h with h3 | h3
          · exact Or.inl h3
          · exact Or.inr (List.mem_cons_of_mem _ h3)

theorem btInsert_sorted {l : List (Nat × Bytes)} (k : Nat) (v : Bytes)
    (h : btSorted l) : btSorted (btInsert l k v) := by
  induction l with
  | nil => simp [btInsert, btSorted]
  | cons hd t ih =>
    obtain ⟨k1, v1⟩ := hd
    rw [btSorted, List.pairwise_cons] at h
    obtain ⟨hhd, ht⟩ := h
    by_cases h1 : k < k1
    · rw [btSorted, btInsert, if_pos h1, List.pairwise_cons]
      refine ⟨?_, ?_⟩
      · intro e he
        rcases List.mem_cons.mp he with he | he
        · simpa [he] using h1
        · exact lt_trans h1 (hhd e he)
      · rw [btSorted] at *
        exact List.pairwise_cons.mpr ⟨hhd, ht⟩
    · by_cases h2 : k = k1
      · subst h2
        rw [btSorted, btInsert, if_neg h1, if_pos rfl, List.pairwise_cons]
        exact ⟨hhd, ht⟩
      · rw [btSorted, btInsert, if_neg h1, if_neg h2, List.pairwise_cons]
        refine ⟨?_, ih ht⟩
        intro e he
        rcases mem_btInsert he with h3 | h3
        · subst h3
          omega
        · exact hhd e h3

theorem btInsert_length_fresh {l : List (Nat × Bytes)} {k : Nat} (v : Bytes)
    (h : btLookup l k = none) : (btInsert l k v).length = l.length + 1 := by
  induction l with
  | nil => simp [btInsert]
  | cons hd t ih =>
    obtain ⟨k1, v1⟩ := hd
    rw [btLookup] at h
    by_cases h2 : k = k1
    · simp [h2] at h
    · rw [if_neg h2] at h
      by_cases h1 : k < k1
      · simp [btInsert, if_pos h1]
      · rw [btInsert, if_neg h1, if_neg h2]
        simp [ih h]

theorem btLookup_mem {l : List (Nat × Bytes)} {k : Nat} {v : Bytes}
    (h : btLookup l k = some v) : (k, v) ∈ l := by
  induction l with
  | nil => simp [btLookup] at h
  | cons hd t ih =>
    obtain ⟨k1, v1⟩ := hd
    rw [btLookup] at h
    by_cases h2 : k = k1
    · rw [if_pos h2] at h
      cases h
      simp [h2]
    · rw [if_neg h2] at h
      exact List.mem_cons_of_mem _ (ih h)

theorem btSorted_ext {l1 l2 : List (Nat × Bytes)} (h1 : btSorted l1) (h2 : btSorted l2)
    (h : ∀ k, btLookup l1 k = btLookup l2 k) : l1 = l2 := by
  induction l1 generalizing l2 with
  | nil =>
    cases l2 with
    | nil => rfl
    | cons hd t =>
      obtain ⟨k2, v2⟩ := hd
      have := h k2
      simp [btLookup] at this
  | cons hd t ih =>
    obtain ⟨k1, v1⟩ := hd
    cases l2 with
    | nil =>
      have := h k1
      simp [btLookup] at this
    | cons hd2 t2 =>
      obtain ⟨k2, v2⟩ := hd2
      rw [btSorted, List.pairwise_cons] at h1 h2
      obtain ⟨hhd1, ht1⟩ := h1
      obtain ⟨hhd2, ht2⟩ := h2
      have hk : k1 = k2 := by
        rcases Nat.lt_trichotomy k1 k2 with hlt | heq | hgt
        · have hx := h k1
          rw [btLookup, if_pos rfl, btLookup, if_neg (by omega)] at hx
          have := btLookup_mem hx.symm
          have := hhd2 _ this
          omega
        · exact heq
        · have hx := h k2
          rw [btLookup, if_neg (by omega), btLookup, if_pos rfl] at hx
          have := btLookup_mem hx
          have := hhd1 _ this
          omega
      subst hk
      have hv : v1 = v2 := by
        have hx := h k1
        rw [btLookup, if_pos rfl, btLookup, if_pos rfl] at hx
        exact Option.some.inj hx
      subst hv
      congr 1
      refine ih ht1 ht2 ?_
      intro k
      by_cases hk1 : k = k1
      · subst hk1
        have e1 : btLookup t k = none := by
          cases he : btLookup t k with
          | none => rfl
          | some v =>
            have := hhd1 _ (btLookup_mem he)
            omega
        have e2 : btLookup t2 k = none := by
          cases he : btLookup t2 k with
          | none => rfl
          | some v =>
            have := hhd2 _ (btLookup_mem he)
            omega
        rw [e1, e2]
      · have hx := h k
        rw [btLookup, if_neg hk1, btLookup, if_neg hk1] at hx
        exact hx

end Receive

namespace Receive

theorem btLookup_of_sorted_mem {l : List (Nat × Bytes)} (hs : btSorted l)
    {k : Nat} {v : Bytes} (hm : (k, v) ∈ l) : btLookup l k = some v := by
  induction l with
  | nil => simp at hm
  | cons hd t ih =>
    obtain ⟨k1, v1⟩ := hd
    rw [btSorted, List.pairwise_cons] at hs
    obtain ⟨hhd, ht⟩ := hs
    rcases List.mem_cons.mp hm with h | h
    · obtain ⟨hk, hv⟩ := Prod.mk.injEq .. ▸ h
      rw [btLookup, if_pos hk]
      exact congrArg some hv.symm ▸ rfl
    · have hlt := hhd _ h
      rw [btLookup, if_neg (by omega)]
      exact ih ht h

/-- The chunk map holding payload `p i` under every key `i < N`. -/
def canonMap (N : Nat) (p : Nat → Bytes) : List (Nat × Bytes) :=
  (List.range N).map (fun i => (i, p i))

theorem canonMap_sorted (N : Nat) (p : Nat → Bytes) : btSorted (canonMap N p) := by
  rw [btSorted, canonMap]
  exact (List.pairwise_lt_range N).map _ (fun a b h => h)

theorem btLookup_canonMap (N : Nat) (p : Nat → Bytes) (k : Nat) :
    btLookup (canonMap N p) k = if k < N then some (p k) else none := by
  by_cases h : k < N
  · rw [if_pos h]
    exact btLookup_of_sorted_mem (canonMap_sorted N p)
      (List.mem_map.mpr ⟨k, List.mem_range.mpr h, rfl⟩)
  · rw [if_neg h]
    cases he : btLookup (canonMap N p) k with
    | none => rfl
    | some v =>
      have := btLookup_mem he
      rw [canonMap] at this
      obtain ⟨i, hi, hiv⟩ := List.mem_map.mp this
      cases hiv
      exact absurd (List.mem_range.mp hi) h

/-- The invariant maintained while the chunks of a single message with id
`id`, declared count `N` and payload function `p` are being fed at time
`now`: the reassembler holds exactly one partial entry, whose chunk map is
the key-sorted map of the already-fed sequence numbers `fed`. -/
def Inv (id now N : Nat) (p : Nat → Bytes) (fed : List Nat) (st : GelfState) : Prop :=
  ∃ inner : List (Nat × Bytes),
    st = { by_id := [(id, ({ expected_total := N, inner := inner }, (now, 0)))]
           by_arrival := [((now, 0), id)]
           counter := 1 } ∧
    btSorted inner ∧
    (∀ k, btLookup inner k = if k ∈ fed then some (p k) else none) ∧
    inner.length = fed.length

theorem chunk_header_get (idb : Bytes) (seq cnt : Nat) (payload : Bytes)
    (h8 : idb.length = 8) (hlt : seq < cnt) :
    ChunkHeader.get (chunkDatagram idb seq cnt payload) =
      .ok ({ id := beNat idb, seq_num := seq, seq_count := cnt }, payload) := by
  have hlen : (chunkDatagram idb seq cnt payload).length = 12 + payload.length := by
    simp [chunkDatagram, h8]
    omega
  have hd2 : (chunkDatagram idb seq cnt payload).drop 2 = idb ++ seq :: cnt :: payload := rfl
  have hd10 : (chunkDatagram idb seq cnt payload).drop 10 = seq :: cnt :: payload := by
    rw [show (10 : Nat) = 2 + 8 by rfl, ← List.drop_drop, hd2, List.drop_left' h8]
  have hd11 : (chunkDatagram idb seq cnt payload).drop 11 = cnt :: payload := by
    rw [show (11 : Nat) = 10 + 1 by rfl, ← List.drop_drop, hd10]
    rfl
  have hd12 : (chunkDatagram idb seq cnt payload).drop 12 = payload := by
    rw [show (12 : Nat) = 11 + 1 by rfl, ← List.drop_drop, hd11]
    rfl
  rw [ChunkHeader.get, if_neg (by omega)]
  rw [hd2, hd10, hd11, hd12, List.take_left' h8]
  simp only [List.headD]
  rw [if_neg (by omega)]

theorem decode_chunk_magic (cfg : Config) (now : Nat) (st : GelfState)
    (idb : Bytes) (seq cnt : Nat) (payload : Bytes) :
    decode cfg now st (chunkDatagram idb seq cnt payload) =
      chunked cfg now st (chunkDatagram idb seq cnt payload) := by
  simp [decode, chunkDatagram, peekMagicBytes]

end Receive

namespace Receive

theorem utLt_now_false (now T : Nat) : utLt (now, 0) (now - T, 0) = false := by
  simp [utLt]

theorem inv_gc_noop (cfg : Config) {id now N : Nat} {p : Nat → Bytes} {fed : List Nat}
    {st : GelfState} (hInv : Inv id now N p fed st)
    (hcap : 2 ≤ cfg.incomplete_capacity) : gc cfg now st = st := by
  obtain ⟨inner, hst, -, -, -⟩ := hInv
  refine gc_eq_self cfg now st ?_ ?_
  · rw [hst]
    simpa using hcap
  · intro a ha
    rw [hst] at ha
    simp only [List.mem_singleton] at ha
    subst ha
    exact utLt_now_false now cfg.incomplete_timeout_ms

theorem decode_push_step (cfg : Config) {id now N : Nat} {p : Nat → Bytes}
    {fed : List Nat} {st : GelfState} (idb : Bytes) (s : Nat)
    (hInv : Inv id now N p fed st)
    (h8 : idb.length = 8) (hid : beNat idb = id)
    (hcap : 2 ≤ cfg.incomplete_capacity) (hN : 2 ≤ N)
    (hmax : N ≤ cfg.max_chunks_per_message)
    (hs : s < N) (hnotfed : s ∉ fed) (hlen : fed.length + 1 < N) :
    ∃ st2, decode cfg now st (chunkDatagram idb s N (p s)) = (.ok none, st2) ∧
      Inv id now N p (s :: fed) st2 := by
  obtain ⟨inner, hst, hsort, hlook, hcount⟩ := hInv
  have hfresh : btLookup inner s = none := by
    rw [hlook s, if_neg hnotfed]
  have hlen2 : (btInsert inner s (p s)).length = fed.length + 1 :=
    (btInsert_length_fresh (p s) hfresh).trans (by omega)
  subst hst
  rw [decode_chunk_magic, chunked]
  rw [inv_gc_noop cfg ⟨inner, rfl, hsort, hlook, hcount⟩ hcap]
  rw [chunk_header_get idb s N (p s) h8 hs]
  dsimp only
  rw [if_neg (show ¬ (s = 0 ∧ N = 1) by omega)]
  rw [if_neg (show ¬ (N > cfg.max_chunks_per_message) by omega)]
  unfold push
  rw [hid]
  simp only [idLookup]
  rw [if_pos trivial]
  dsimp only
  rw [if_neg (show ¬ (N ≠ N) by simp)]
  have hdone : (Chunks.insert { expected_total := N, inner := inner } s (p s)).is_complete
      = false := by
    simp only [Chunks.insert, Chunks.is_complete]
    simp only [hlen2]
    simp only [decide_eq_false_iff_not]
    omega
  rw [hdone]
  simp only [Bool.false_eq_true, if_false]
  refine ⟨_, rfl, ?_⟩
  refine ⟨btInsert inner s (p s), ?_, btInsert_sorted s (p s) hsort, ?_, ?_⟩
  · simp [idReplace, Chunks.insert]
  · intro k
    rw [btLookup_insert, hlook k]
    by_cases hk : k = s
    · subst hk
      simp
    · rw [if_neg hk]
      by_cases hf : k ∈ fed
      · rw [if_pos hf, if_pos (List.mem_cons_of_mem _ hf)]
      · rw [if_neg hf, if_neg (by simp [hk, hf])]
  · simpa using hlen2

end Receive

namespace Receive

theorem decode_push_final (cfg : Config) {id now N : Nat} {p : Nat → Bytes}
    {fed : List Nat} {st : GelfState} (idb : Bytes) (s : Nat)
    (hInv : Inv id now N p fed st)
    (h8 : idb.length = 8) (hid : beNat idb = id)
    (hcap : 2 ≤ cfg.incomplete_capacity) (hN : 2 ≤ N)
    (hmax : N ≤ cfg.max_chunks_per_message)
    (hs : s < N) (hnotfed : s ∉ fed) (hlen : fed.length + 1 = N)
    (hmem : ∀ k, k ∈ s :: fed ↔ k < N) :
    decode cfg now st (chunkDatagram idb s N (p s)) =
      (.ok (some (.chunked ((List.range N).map p))),
        { by_id := [], by_arrival := [], counter := 1 }) := by
  obtain ⟨inner, hst, hsort, hlook, hcount⟩ := hInv
  have hfresh : btLookup inner s = none := by
    rw [hlook s, if_neg hnotfed]
  have hlen2 : (btInsert inner s (p s)).length = fed.length + 1 :=
    (btInsert_length_fresh (p s) hfresh).trans (by omega)
  have hcanon : btInsert inner s (p s) = canonMap N p := by
    refine btSorted_ext (btInsert_sorted s (p s) hsort) (canonMap_sorted N p) ?_
    intro k
    rw [btLookup_insert, hlook k, btLookup_canonMap]
    by_cases hk : k = s
    · subst hk
      rw [if_pos rfl, if_pos ((hmem k).mp (List.mem_cons_self k fed))]
    · rw [if_neg hk]
      by_cases hf : k ∈ fed
      · rw [if_pos hf, if_pos ((hmem k).mp (List.mem_cons_of_mem _ hf))]
      · rw [if_neg hf, if_neg ?_]
        intro hkN
        rcases List.mem_cons.mp ((hmem k).mpr hkN) with h | h
        · exact hk h
        · exact hf h
  subst hst
  rw [decode_chunk_magic, chunked]
  rw [inv_gc_noop cfg ⟨inner, rfl, hsort, hlook, hcount⟩ hcap]
  rw [chunk_header_get idb s N (p s) h8 hs]
  dsimp only
  rw [if_neg (show ¬ (s = 0 ∧ N = 1) by omega)]
  rw [if_neg (show ¬ (N > cfg.max_chunks_per_message) by omega)]
  unfold push
  rw [hid]
  simp only [idLookup]
  rw [if_pos trivial]
  dsimp only
  rw [if_neg (show ¬ (N ≠ N) by simp)]
  have hdone : (Chunks.insert { expected_total := N, inner := inner } s (p s)).is_complete
      = true := by
    simp only [Chunks.insert, Chunks.is_complete]
    simp only [hlen2]
    simp only [decide_eq_true_eq]
    omega
  rw [hdone]
  simp only [if_true]
  have hmsg : Message.mkChunked
      (List.map (fun x => x.2) (Chunks.insert { expected_total := N, inner := inner } s (p s)).inner)
      = some (.chunked ((List.range N).map p)) := by
    simp only [Chunks.insert]
    rw [hcanon, canonMap, List.map_map]
    rw [Message.mkChunked, if_neg (by simp; omega)]
    simp [Function.comp]
  rw [hmsg]
  simp [List.filter]

theorem decode_first_chunk (cfg : Config) {N : Nat} (now : Nat) (p : Nat → Bytes)
    (idb : Bytes) (s : Nat)
    (h8 : idb.length = 8)
    (hcap : 2 ≤ cfg.incomplete_capacity) (hN : 2 ≤ N)
    (hmax : N ≤ cfg.max_chunks_per_message) (hs : s < N) :
    ∃ st2, decode cfg now GelfState.empty (chunkDatagram idb s N (p s)) = (.ok none, st2) ∧
      Inv (beNat idb) now N p [s] st2 := by
  rw [decode_chunk_magic, chunked]
  have hgc : gc cfg now GelfState.empty = GelfState.empty := by
    refine gc_eq_self cfg now _ ?_ ?_
    · simpa [GelfState.empty] using (by omega : 0 < cfg.incomplete_capacity)
    · intro a ha
      simp [GelfState.empty] at ha
  rw [hgc, chunk_header_get idb s N (p s) h8 hs]
  dsimp only
  rw [if_neg (show ¬ (s = 0 ∧ N = 1) by omega)]
  rw [if_neg (show ¬ (N > cfg.max_chunks_per_message) by omega)]
  unfold push
  simp only [GelfState.empty, idLookup]
  refine ⟨_, rfl, ?_⟩
  refine ⟨[(s, p s)], ?_, ?_, ?_, ?_⟩
  · simp [Chunks.new]
  · simp [btSorted]
  · intro k
    by_cases hk : k = s
    · subst hk
      simp [btLookup]
    · simp [btLookup, hk]
  · simp

end Receive

namespace Receive

theorem feed_cons (cfg : Config) (now : Nat) (st : GelfState) (d : Bytes)
    (ds : List Bytes) :
    feed cfg now st (d :: ds) =
      ((decode cfg now st d).1 :: (feed cfg now (decode cfg now st d).2 ds).1,
        (feed cfg now (decode cfg now st d).2 ds).2) := rfl

theorem feed_completes (cfg : Config) {id now N : Nat} {p : Nat → Bytes} (idb : Bytes)
    (h8 : idb.length = 8) (hid : beNat idb = id)
    (hcap : 2 ≤ cfg.incomplete_capacity) (hN : 2 ≤ N)
    (hmax : N ≤ cfg.max_chunks_per_message) :
    ∀ (todo fed : List Nat) (st : GelfState),
      Inv id now N p fed st →
      List.Perm (fed ++ todo) (List.range N) →
      todo ≠ [] →
      feed cfg now st (todo.map (fun s => chunkDatagram idb s N (p s))) =
        (List.replicate (todo.length - 1) (.ok none) ++
          [.ok (some (.chunked ((List.range N).map p)))],
         { by_id := [], by_arrival := [], counter := 1 }) := by
  intro todo
  induction todo with
  | nil => intro fed st _ _ h; exact absurd rfl h
  | cons s todo ih =>
    intro fed st hInv hperm _
    have hnodup : (fed ++ s :: todo).Nodup := hperm.nodup_iff.mpr (List.nodup_range N)
    have hdisj := (List.nodup_append.mp hnodup).2.2
    have hnotfed : s ∉ fed := fun hmem => hdisj hmem (List.mem_cons_self s todo)
    have hsN : s < N := List.mem_range.mp (hperm.subset (by simp))
    have hlenall : fed.length + (todo.length + 1) = N := by
      have := hperm.length_eq
      simpa using this
    cases todo with
    | nil =>
      simp only [List.length_nil] at hlenall
      have hmem : ∀ k, k ∈ s :: fed ↔ k < N := by
        intro k
        rw [← List.mem_range (n := N), ← hperm.mem_iff]
        simp [or_comm]
      have hfin := decode_push_final cfg idb s hInv h8 hid hcap hN hmax hsN hnotfed
        (by omega) hmem
      rw [List.map_cons, List.map_nil, feed_cons, hfin]
      simp [feed]
    | cons s2 todo2 =>
      simp only [List.length_cons] at hlenall
      obtain ⟨st2, hdec, hInv2⟩ := decode_push_step cfg idb s hInv h8 hid hcap hN hmax
        hsN hnotfed (by omega)
      have hperm2 : List.Perm ((s :: fed) ++ (s2 :: todo2)) (List.range N) := by
        refine List.Perm.trans ?_ hperm
        exact List.Perm.symm List.perm_middle
      have hrec := ih (s :: fed) st2 hInv2 hperm2 (by simp)
      rw [List.map_cons, feed_cons, hdec, hrec]
      simp [List.replicate_succ]

end Receive

open Receive in
/-- C2: feeding the N chunks (2 ≤ N ≤ `max_chunks_per_message`) of one
message id, with distinct sequence numbers 0..N−1 and declared count N,
to `Gelf::decode` in ANY order at one instant and below capacity returns
no message for each of the first N−1 chunks and, on the N-th, exactly one
chunked message whose payloads are the chunk payloads in ascending
sequence order; the results and the final (empty) reassembly state are
the same for every permutation. -/
theorem spec_C2_chunk_order_invariance (cfg : Config) (idb : Bytes) (N : Nat)
    (p : Nat → Bytes) (perm : List Nat) (now : Nat)
    (h8 : idb.length = 8)
    (hperm : List.Perm perm (List.range N))
    (hN : 2 ≤ N) (hmax : N ≤ cfg.max_chunks_per_message)
    (_hmax8 : cfg.max_chunks_per_message ≤ 255)
    (hcap : 2 ≤ cfg.incomplete_capacity) :
    feed cfg now GelfState.empty (perm.map (fun s => chunkDatagram idb s N (p s))) =
      (List.replicate (N - 1) (.ok none) ++
        [.ok (some (.chunked ((List.range N).map p)))],
       { by_id := [], by_arrival := [], counter := 1 }) := by
  cases perm with
  | nil =>
    have := hperm.length_eq
    simp at this
    omega
  | cons s rest =>
    have hsN : s < N := List.mem_range.mp (hperm.subset (by simp))
    obtain ⟨st1, hdec1, hInv1⟩ := decode_first_chunk cfg now p idb s h8 hcap hN hmax hsN
    have hrest : rest ≠ [] := by
      intro h
      subst h
      have := hperm.length_eq
      simp at this
      omega
    have hlen : rest.length + 1 = N := by
      have := hperm.length_eq
      simpa using this
    have hfeed := feed_completes cfg idb h8 rfl hcap hN hmax rest [s] st1 hInv1
      (by simpa using hperm) hrest
    rw [List.map_cons, feed_cons, hdec1, hfeed]
    have : N - 1 = (rest.length - 1) + 1 := by omega
    rw [this, List.replicate_succ]
    have : rest.length - 1 + 1 = rest.length := by
      cases rest with
      | nil => exact absurd rfl hrest
      | cons a t => simp
    simp [this]

open Receive in
/-- Witness for C2: the two chunks of a two-chunk message delivered in
reversed order. -/
theorem spec_C2_chunk_order_invariance_witness :
    List.Perm [1, 0] (List.range 2) ∧
    feed Config.default 0 GelfState.empty
      ([1, 0].map (fun s => chunkDatagram [0, 0, 0, 0, 0, 0, 0, 7] s 2
        ((fun i => [65 + i]) s))) =
      (List.replicate 1 (.ok none) ++
        [.ok (some (.chunked ((List.range 2).map (fun i => [65 + i]))))],
       { by_id := [], by_arrival := [], counter := 1 }) :=
  ⟨by decide,
    spec_C2_chunk_order_invariance Config.default [0, 0, 0, 0, 0, 0, 0, 7] 2
      (fun i => [65 + i]) [1, 0] 0 (by decide) (by decide) (by decide) (by decide)
      (by decide) (by decide)⟩

open Receive in
/-- Witness for C3: a one-slot table already holding a partial message is
flushed when a fresh chunk datagram arrives. -/
theorem spec_C3_capacity_full_flush_witness :
    cexSt.by_id.length ≥ cexCfg.incomplete_capacity ∧
    ((decode cexCfg 0 cexSt (0x1e :: 0x0f :: [0, 0, 0, 0, 0, 0, 0, 5, 0, 2, 65])).2.by_id.length ≤ 1 ∧
     (decode cexCfg 0 cexSt (0x1e :: 0x0f :: [0, 0, 0, 0, 0, 0, 0, 5, 0, 2, 65])).2.by_arrival.length ≤ 1 ∧
     (∀ e ∈ (decode cexCfg 0 cexSt (0x1e :: 0x0f :: [0, 0, 0, 0, 0, 0, 0, 5, 0, 2, 65])).2.by_id,
       e.1 = datagramId (0x1e :: 0x0f :: [0, 0, 0, 0, 0, 0, 0, 5, 0, 2, 65])) ∧
     (∀ a ∈ (decode cexCfg 0 cexSt (0x1e :: 0x0f :: [0, 0, 0, 0, 0, 0, 0, 5, 0, 2, 65])).2.by_arrival,
       a.2 = datagramId (0x1e :: 0x0f :: [0, 0, 0, 0, 0, 0, 0, 5, 0, 2, 65]))) :=
  ⟨by decide, spec_C3_capacity_full_flush cexCfg 0 cexSt [0, 0, 0, 0, 0, 0, 0, 5, 0, 2, 65]
    (by decide)⟩

open Receive in
/-- Witness for C7 (amended): a two-byte chunk-magic datagram against an
empty, unexpired table errors and leaves the state untouched. -/
theorem spec_C7_malformed_chunk_state_witness :
    GelfState.empty.by_id.length < cexCfg.incomplete_capacity ∧
    (∃ e, decode cexCfg 0 GelfState.empty (0x1e :: 0x0f :: []) = (.error e, GelfState.empty)) :=
  ⟨by decide,
    spec_C7_malformed_chunk_state cexCfg 0 GelfState.empty [] (by decide)
      (by intro a ha; simp [GelfState.empty] at ha) (Or.inl (by decide))⟩

namespace Process

/-- A JSON value as far as the transformer inspects one
(`serde_json::Value`); objects and arrays never need to be traversed by
the properties the claims are about, so only scalar payloads are
represented. -/
inductive Json
  | str (s : String)
  | num (n : Int)
  | bool (b : Bool)
  | null
deriving DecidableEq, Repr

/-- `Value::as_str`. -/
def Json.asStr : Json → Option String
  | .str s => some s
  | _ => none

/-- `clef::Timestamp` as held by a CLEF message: either built by
`Timestamp::from_decimal` from a GELF decimal timestamp, the current
instant `Timestamp::now()`, or a value deserialized from an RFC 3339
string of an embedded CLEF payload. -/
inductive Timestamp
  | fromDecimal (q : Rat)
  | now
  | parsed (s : String)
deriving DecidableEq, Repr

/-- Modelled from the spec: `Timestamp::from_decimal` as called by
`to_clef` is not part of the sources (`src/sqelf/src/process/clef.rs` is
an older revision that only has `Timestamp::from_float`); per §3 of the
spec a decimal number of seconds is parsed into an instant, so the
rational is carried as-is. -/
def Timestamp.from_decimal (q : Rat) : Option Timestamp :=
  some (.fromDecimal q)

/-- The GELF envelope as consumed by `to_clef` in
`src/sqelf/src/process/mod.rs` (fields from its destructuring pattern;
the matching `gelf.rs` revision is not under the sources).  `additional`
is the flattened remainder of the JSON document; `to_clef` only iterates
it when it is a JSON object, so it is modelled as the object's fields
directly (`None` standing for an absent or non-object remainder). -/
structure GelfMessage where
  version : Option String := none
  host : Option String := none
  level : Option Nat := none
  short_message : String
  full_message : Option String := none
  timestamp : Option Rat := none
  facility : Option String := none
  file : Option String := none
  line : Option Nat := none
  additional : Option (List (String × Json)) := none
deriving DecidableEq, Repr

/-- The `clef::Message` of the revision used by `process/mod.rs`: the
`@m`/`@mt`/`@t`/`@l`/`@x` built-ins and the flattened additional
properties (`HashMap<Str, Value>`, modelled as an association list with
lookup semantics). -/
structure ClefMessage where
  message : Option String := none
  message_template : Option String := none
  timestamp : Option Timestamp := none
  level : Option String := none
  exception : Option String := none
  additional : List (String × Json) := []
deriving DecidableEq, Repr

/-- `clef::Message::from_message`. -/
def from_message (msg : String) : ClefMessage :=
  { message := some msg }

/-- `HashMap::get`. -/
def mapLookup (m : List (String × Json)) (k : String) : Option Json :=
  match m with
  | [] => none
  | (k1, v1) :: t => if k1 = k then some v1 else mapLookup t k

/-- `HashMap::insert`: replaces the value under an existing key and
returns the previous value. -/
def mapInsert (m : List (String × Json)) (k : String) (v : Json) :
    Option Json × List (String × Json) :=
  match m with
  | [] => (none, [(k, v)])
  | (k1, v1) :: t =>
    if k1 = k then (some v1, (k, v) :: t)
    else
      let r := mapInsert t k v
      (r.1, (k1, v1) :: r.2)

/-- `override_value`: insert under `name`; if a previous value existed,
re-insert it under `__name` (silently replacing anything already there). -/
def override_value (fields : List (String × Json)) (name : String) (value : Json) :
    List (String × Json) :=
  match mapInsert fields name value with
  | (some old, fields2) => (mapInsert fields2 ("__" ++ name) old).2
  | (none, fields2) => fields2

/-- `find_first`. -/
def find_first (fields : List (String × Json)) : List String → Option Json
  | [] => none
  | n :: rest =>
    match mapLookup fields n with
    | some v => some v
    | none => find_first fields rest

/-- The key adjustment made by `Message::additional()`: one leading
underscore is stripped. -/
def stripUnderscore (k : String) : String :=
  match k.data with
  | '_' :: t => String.mk t
  | _ => k

/-- The Syslog level table of `to_clef`. -/
def syslogLevel : Nat → String
  | 0 => "emerg"
  | 1 => "alert"
  | 2 => "crit"
  | 3 => "err"
  | 4 => "warning"
  | 5 => "notice"
  | 6 => "info"
  | 7 => "debug"
  | _ => "debug"

/-- The eight Syslog level names. -/
def syslogNames : List String :=
  ["emerg", "alert", "crit", "err", "warning", "notice", "info", "debug"]

/-- `to_clef` step: set the log level from the Syslog table when the
embedded payload supplied none. -/
def step_level (g : GelfMessage) (clef : ClefMessage) : ClefMessage :=
  if clef.level = none then
    { clef with level := some (syslogLevel (g.level.getD 6)) }
  else clef

/-- `to_clef` step: set the timestamp, giving priority to the embedded
CLEF timestamp, falling back to the GELF decimal and then to now. -/
def step_timestamp (g : GelfMessage) (clef : ClefMessage) : ClefMessage :=
  if clef.timestamp = none then
    { clef with
      timestamp := some ((g.timestamp.bind Timestamp.from_decimal).getD .now) }
  else clef

/-- `to_clef` step: set the exception from `full_message` unless it
repeats `short_message`. -/
def step_exception (g : GelfMessage) (clef : ClefMessage) : ClefMessage :=
  if clef.exception = none then
    { clef with
      exception := g.full_message.filter (fun fm => fm ≠ g.short_message) }
  else clef

/-- `to_clef` step: fold the GELF additional fields (one leading
underscore stripped) over the CLEF property map with `override_value`. -/
def step_additional (g : GelfMessage) (clef : ClefMessage) : ClefMessage :=
  match g.additional with
  | some fields =>
    { clef with
      additional := fields.foldl
        (fun m kv => override_value m (stripUnderscore kv.1) kv.2) clef.additional }
  | none => clef

/-- `to_clef` step: promote the `host` built-in. -/
def step_host (g : GelfMessage) (clef : ClefMessage) : ClefMessage :=
  match g.host with
  | some h => { clef with additional := override_value clef.additional "host" (.str h) }
  | none => clef

/-- `to_clef` step: promote the `facility` built-in. -/
def step_facility (g : GelfMessage) (clef : ClefMessage) : ClefMessage :=
  match g.facility with
  | some fc =>
    { clef with additional := override_value clef.additional "facility" (.str fc) }
  | none => clef

/-- `to_clef` step: promote the `file` built-in. -/
def step_file (g : GelfMessage) (clef : ClefMessage) : ClefMessage :=
  match g.file with
  | some fl => { clef with additional := override_value clef.additional "file" (.str fl) }
  | none => clef

/-- `to_clef` step: promote the `line` built-in. -/
def step_line (g : GelfMessage) (clef : ClefMessage) : ClefMessage :=
  match g.line with
  | some ln => { clef with additional := override_value clef.additional "line" (.num ln) }
  | none => clef

/-- `to_clef` step: when neither `@m` nor `@mt` ended up set, fall back
to a string-typed `message` or `msg` additional property. -/
def step_fallback (clef : ClefMessage) : ClefMessage :=
  if clef.message.isNone && clef.message_template.isNone then
    { clef with
      message := (find_first clef.additional ["message", "msg"]).bind Json.asStr }
  else clef

/-- `gelf::Message::to_clef` (`src/sqelf/src/process/mod.rs`), as the
composition of its steps in source order.  The result of
`clef::Message::maybe_from_json(short_message)` — an external JSON parse
— is passed in as `embedded`. -/
def to_clef (g : GelfMessage) (embedded : Option ClefMessage) : ClefMessage :=
  step_fallback (step_line g (step_file g (step_facility g (step_host g
    (step_additional g (step_exception g (step_timestamp g (step_level g
      (embedded.getD (from_message g.short_message))))))))))

/-- `Timestamp::from_float` (`src/sqelf/src/process/clef.rs`): seconds
and nanoseconds since the epoch; negative inputs clamp to the epoch, the
fractional part is scaled to nanoseconds, truncated, and floored to a
whole number of milliseconds.  `f64` arithmetic is modelled exactly over
the rationals; claims instantiate it only at values where the source's
floating-point computation is exact. -/
def Timestamp.from_float (ts : Rat) : Nat × Nat :=
  if ts < 0 then (0, 0)
  else
    let secs := (⌊ts⌋).toNat
    let nanos := (⌊(ts - ⌊ts⌋) * 10 ^ 9⌋).toNat
    (secs, nanos / 1000000 * 1000000)

/-- The instant stored by `Timestamp::from_float`, in nanoseconds since
the epoch.  `humantime::format_rfc3339` and `parse_rfc3339` round-trip
the stored instant exactly, so the value that the emitted `@t` string
parses back to is this one. -/
def fromFloatNs (ts : Rat) : Nat :=
  (Timestamp.from_float ts).1 * 10 ^ 9 + (Timestamp.from_float ts).2

end Process

namespace Process

theorem dunder_ne (n : String) : ("__" ++ n) ≠ n := by
  intro h
  have hl := congrArg String.length h
  rw [String.length_append, show "__".length = 2 from rfl] at hl
  omega

theorem stripUnderscore_underscore (n : String) : stripUnderscore ("_" ++ n) = n := by
  rw [stripUnderscore]
  rw [show ("_" ++ n).data = '_' :: n.data by simp [String.data_append]]
  rfl

end Process

open Process in
/-- C1: one-level collision shadowing in `to_clef`.
(i) A GELF user field `_n` and an embedded-CLEF property `n` collide: the
envelope's value ends up under `n` and the payload's value under `__n`.
(ii) The envelope built-ins `host`, `facility`, `file` and `line` shadow
embedded-CLEF properties of the same names the same way.
(iii) In a triple collision (built-in `host`, user field `_host`, payload
property `host`) the built-in takes `host`, the user field's value takes
`__host`, and the payload's value is dropped. -/
theorem spec_C1_precedence_shadowing :
    (∀ (n sm : String) (vEnv vPay : Json),
      (to_clef { short_message := sm, additional := some [("_" ++ n, vEnv)] }
        (some { additional := [(n, vPay)] })).additional =
        [(n, vEnv), ("__" ++ n, vPay)]) ∧
    (∀ (sm h fc fl : String) (ln : Nat) (vh vfc vfl vln : Json),
      (to_clef { short_message := sm, host := some h, facility := some fc,
                 file := some fl, line := some ln }
        (some { additional :=
          [("host", vh), ("facility", vfc), ("file", vfl), ("line", vln)] })).additional =
        [("host", .str h), ("facility", .str fc), ("file", .str fl), ("line", .num ln),
         ("__host", vh), ("__facility", vfc), ("__file", vfl), ("__line", vln)]) ∧
    (∀ (sm h : String) (vU vP : Json),
      (to_clef { short_message := sm, host := some h,
                 additional := some [("_host", vU)] }
        (some { additional := [("host", vP)] })).additional =
        [("host", .str h), ("__host", vU)]) := by
  refine ⟨?_, ?_, ?_⟩
  · intro n sm vEnv vPay
    simp [to_clef, step_level, step_timestamp, step_exception, step_additional,
      step_host, step_facility, step_file, step_line, step_fallback, from_message,
      stripUnderscore_underscore, override_value, mapInsert,
      Ne.symm (dunder_ne n)]
  · intro sm h fc fl ln vh vfc vfl vln
    rfl
  · intro sm h vU vP
    rfl

namespace Process

theorem step_timestamp_level (g : GelfMessage) (c : ClefMessage) :
    (step_timestamp g c).level = c.level := by
  rw [step_timestamp]
  split <;> rfl

theorem step_exception_level (g : GelfMessage) (c : ClefMessage) :
    (step_exception g c).level = c.level := by
  rw [step_exception]
  split <;> rfl

theorem step_additional_level (g : GelfMessage) (c : ClefMessage) :
    (step_additional g c).level = c.level := by
  rw [step_additional]
  cases g.additional <;> rfl

theorem step_host_level (g : GelfMessage) (c : ClefMessage) :
    (step_host g c).level = c.level := by
  rw [step_host]
  cases g.host <;> rfl

theorem step_facility_level (g : GelfMessage) (c : ClefMessage) :
    (step_facility g c).level = c.level := by
  rw [step_facility]
  cases g.facility <;> rfl

theorem step_file_level (g : GelfMessage) (c : ClefMessage) :
    (step_file g c).level = c.level := by
  rw [step_file]
  cases g.file <;> rfl

theorem step_line_level (g : GelfMessage) (c : ClefMessage) :
    (step_line g c).level = c.level := by
  rw [step_line]
  cases g.line <;> rfl

theorem step_fallback_level (c : ClefMessage) :
    (step_fallback c).level = c.level := by
  rw [step_fallback]
  split <;> rfl

theorem to_clef_level (g : GelfMessage) (embedded : Option ClefMessage) :
    (to_clef g embedded).level =
      (step_level g (embedded.getD (from_message g.short_message))).level := by
  rw [to_clef, step_fallback_level, step_line_level, step_file_level,
    step_facility_level, step_host_level, step_additional_level,
    step_exception_level, step_timestamp_level]

theorem syslogLevel_mem (k : Nat) : syslogLevel k ∈ syslogNames := by
  rcases k with _ | _ | _ | _ | _ | _ | _ | _ | k <;> simp [syslogLevel, syslogNames]

end Process

open Process in
/-- C5 counterexample: an embedded CLEF payload may carry any string as
`@l`; `to_clef` passes it through verbatim, so the emitted level is not
always one of the eight Syslog names. -/
theorem spec_C5_counterexample :
    (to_clef { short_message := "\x7b\"@l\":\"Information\"\x7d" }
      (some { level := some "Information" })).level = some "Information" ∧
    "Information" ∉ syslogNames := by
  constructor
  · rfl
  · decide

open Process in
/-- C5 (amended): whenever the embedded CLEF payload does not supply
`@l` (no payload parsed, or its `@l` absent), the emitted `@l` is one of
the eight Syslog names — also when the GELF `level` is absent (default 6)
or ≥ 8; when the embedded payload does supply `@l`, that string is passed
through unchanged. -/
theorem spec_C5_level_syslog (g : GelfMessage) (embedded : Option ClefMessage) :
    ((∀ e, embedded = some e → e.level = none) →
      ∃ l, (to_clef g embedded).level = some l ∧ l ∈ syslogNames) ∧
    (∀ (e : ClefMessage) (s : String),
      embedded = some e → e.level = some s → (to_clef g embedded).level = some s) := by
  constructor
  · intro hemb
    rw [to_clef_level]
    have hbase : (embedded.getD (from_message g.short_message)).level = none := by
      cases embedded with
      | none => rfl
      | some e => exact hemb e rfl
    simp only [step_level, hbase, if_pos rfl]
    exact ⟨_, rfl, syslogLevel_mem _⟩
  · intro e s hsome hs
    subst hsome
    rw [to_clef_level]
    simp [step_level, hs]

open Process in
/-- Witness for C5 (amended): the default level maps to `info`, and an
embedded `@l` string survives verbatim. -/
theorem spec_C5_level_syslog_witness :
    (∃ l, (to_clef { short_message := "bar" } none).level = some l ∧ l ∈ syslogNames) ∧
    (to_clef { short_message := "sm" } (some { level := some "warning" })).level =
      some "warning" :=
  ⟨(spec_C5_level_syslog { short_message := "bar" } none).1
      (fun e h => Option.noConfusion h),
   (spec_C5_level_syslog { short_message := "sm" }
      (some { level := some "warning" })).2 { level := some "warning" } "warning" rfl rfl⟩

open Process in
/-- C6 counterexample: `Timestamp::from_float` floors the sub-second part
to whole milliseconds, so a GELF timestamp of 1/16 s (exactly
representable in `f64`, with every intermediate product exact) is stored
as 62 ms = 62000000 ns, which is 500000 ns — far more than 1 ns — away
from `UNIX_EPOCH + 1/16 s`. -/
theorem spec_C6_counterexample :
    fromFloatNs (1 / 16 : Rat) = 62000000 ∧
    (1 : Rat) ≤ |(fromFloatNs (1 / 16 : Rat) : Rat) - (1 / 16 : Rat) * 10 ^ 9| := by
  have hfloor : ⌊(1 / 16 : Rat)⌋ = 0 := by
    rw [Int.floor_eq_iff] <;> norm_num
  have hff : Timestamp.from_float (1 / 16 : Rat) = (0, 62000000) := by
    rw [Timestamp.from_float, if_neg (by norm_num), hfloor]
    have h2 : ((1 / 16 : Rat) - (((0 : Int) : Rat))) * 10 ^ 9 = ((62500000 : Int) : Rat) := by
      norm_num
    rw [h2, Int.floor_intCast]
    rfl
  have hns : fromFloatNs (1 / 16 : Rat) = 62000000 := by
    rw [fromFloatNs, hff]
    rfl
  constructor
  · exact hns
  · rw [hns]
    norm_num

open Process in
/-- C6 (amended): for every nonnegative decimal timestamp `S` (seconds),
the instant stored by `Timestamp::from_float` — and hence the instant the
emitted RFC 3339 `@t` string parses back to — is within 1 millisecond
(10^6 ns) of `UNIX_EPOCH + S` seconds, never more than `S` itself:
sub-second precision is truncated to whole milliseconds, not preserved to
nanoseconds. -/
theorem spec_C6_timestamp_millis (S : Rat) (hS : 0 ≤ S) :
    |(fromFloatNs S : Rat) - S * 10 ^ 9| < 10 ^ 6 := by
  have h0 : ¬ S < 0 := not_lt.mpr hS
  have hfl : Timestamp.from_float S =
      ((⌊S⌋).toNat, (⌊(S - ⌊S⌋) * 10 ^ 9⌋).toNat / 1000000 * 1000000) := by
    rw [Timestamp.from_float, if_neg h0]
  have hf0 : (0 : Rat) ≤ S - ⌊S⌋ := sub_nonneg.mpr (Int.floor_le S)
  have hf1 : S - ⌊S⌋ < 1 := by
    have := Int.lt_floor_add_one S
    linarith
  have hn0_0 : 0 ≤ ⌊(S - ⌊S⌋) * 10 ^ 9⌋ :=
    Int.floor_nonneg.mpr (by positivity)
  have hn0_le : ((⌊(S - ⌊S⌋) * 10 ^ 9⌋ : Int) : Rat) ≤ (S - ⌊S⌋) * 10 ^ 9 :=
    Int.floor_le _
  have hn0_gt : (S - ⌊S⌋) * 10 ^ 9 < (⌊(S - ⌊S⌋) * 10 ^ 9⌋ : Int) + 1 :=
    Int.lt_floor_add_one _
  have hmn : (((⌊(S - ⌊S⌋) * 10 ^ 9⌋).toNat / 1000000 * 1000000 : Nat) : Int)
        ≤ ⌊(S - ⌊S⌋) * 10 ^ 9⌋ ∧
      ⌊(S - ⌊S⌋) * 10 ^ 9⌋ + 1
        ≤ (((⌊(S - ⌊S⌋) * 10 ^ 9⌋).toNat / 1000000 * 1000000 : Nat) : Int) + 1000000 := by
    omega
  have hmq1 : (((⌊(S - ⌊S⌋) * 10 ^ 9⌋).toNat / 1000000 * 1000000 : Nat) : Rat)
      ≤ ((⌊(S - ⌊S⌋) * 10 ^ 9⌋ : Int) : Rat) := by
    have c1 : ((((⌊(S - ⌊S⌋) * 10 ^ 9⌋).toNat / 1000000 * 1000000 : Nat) : Int) : Rat)
        ≤ ((⌊(S - ⌊S⌋) * 10 ^ 9⌋ : Int) : Rat) := Int.cast_le.mpr hmn.1
    rwa [Int.cast_natCast] at c1
  have hmq2 : ((⌊(S - ⌊S⌋) * 10 ^ 9⌋ : Int) : Rat) + 1
      ≤ (((⌊(S - ⌊S⌋) * 10 ^ 9⌋).toNat / 1000000 * 1000000 : Nat) : Rat) + 1000000 := by
    have c2 : (((⌊(S - ⌊S⌋) * 10 ^ 9⌋ + 1 : Int)) : Rat)
        ≤ (((((⌊(S - ⌊S⌋) * 10 ^ 9⌋).toNat / 1000000 * 1000000 : Nat) : Int) : Rat)
            + ((1000000 : Int) : Rat)) := by
      rw [← Int.cast_add]
      exact Int.cast_le.mpr hmn.2
    rw [Int.cast_natCast, Int.cast_add] at c2
    simpa using c2
  have hfloor0 : 0 ≤ ⌊S⌋ := Int.floor_nonneg.mpr hS
  have hsn : ((⌊S⌋.toNat : Nat) : Rat) = ((⌊S⌋ : Int) : Rat) := by
    exact_mod_cast Int.toNat_of_nonneg hfloor0
  have hNs : (fromFloatNs S : Rat) =
      ((⌊S⌋ : Int) : Rat) * 10 ^ 9
        + (((⌊(S - ⌊S⌋) * 10 ^ 9⌋).toNat / 1000000 * 1000000 : Nat) : Rat) := by
    rw [fromFloatNs, hfl]
    push_cast
    rw [hsn]
    ring
  rw [hNs, abs_lt]
  have hexp : (10 : Rat) ^ 6 = 1000000 := by norm_num
  rw [hexp]
  have hSplit : S * 10 ^ 9 =
      ((⌊S⌋ : Int) : Rat) * 10 ^ 9 + (S - ⌊S⌋) * 10 ^ 9 := by ring
  rw [hSplit]
  set F9 : Rat := (S - ⌊S⌋) * 10 ^ 9 with hF9
  set MQ : Rat := (((⌊(S - ⌊S⌋) * 10 ^ 9⌋).toNat / 1000000 * 1000000 : Nat) : Rat) with hMQ
  set NQ : Rat := ((⌊(S - ⌊S⌋) * 10 ^ 9⌋ : Int) : Rat) with hNQ
  constructor
  · linarith [hmq1, hmq2, hn0_le, hn0_gt]
  · linarith [hmq1, hmq2, hn0_le, hn0_gt]

open Process in
/-- Witness for C6 (amended) at `S = 1/2`. -/
theorem spec_C6_timestamp_millis_witness :
    (0 : Rat) ≤ 1 / 2 ∧
    |(fromFloatNs (1 / 2 : Rat) : Rat) - (1 / 2 : Rat) * 10 ^ 9| < 10 ^ 6 :=
  ⟨by norm_num, spec_C6_timestamp_millis (1 / 2) (by norm_num)⟩

namespace Tcp

/-- The state of the TCP frame decoder (`Decode` in
`src/sqelf/src/server/tcp.rs`), together with the
`server.tcp_msg_overflow` counter it increments. -/
structure DecodeState where
  max_size_bytes : Nat
  read_head : Nat
  discarding : Bool
  overflow : Nat
deriving DecidableEq, Repr

/-- What one `Decode::decode` call produces: a frame handed to the
`receive` closure, or `None` (more data needed). -/
inductive DecodeOut
  | frame (payload : List Nat)
  | needMore
deriving DecidableEq, Repr

/-- `Decode::decode`: the `'read_frame` loop.  Returns the produced
output, the decoder state after the call, and the bytes left in the
buffer.  `read_to = min(max_size_bytes saturating+ 1, len)`; NUL search
starts at `read_head`. -/
def decodeLoop (max read_head : Nat) (discarding : Bool) (overflow : Nat)
    (src : List Nat) : DecodeOut × DecodeState × List Nat :=
  if discarding then
    match hsep : (src.drop read_head).findIdx? (fun b => b == 0) with
    | some offset =>
      decodeLoop max 0 false overflow (src.drop (offset + read_head + 1))
    | none =>
      let rest := src.drop (min (max + 1) src.length)
      if hrest : rest.length = 0 then
        (.needMore, ⟨max, 0, true, overflow⟩, rest)
      else
        decodeLoop max 0 true overflow rest
  else
    match hsep : (src.drop read_head).findIdx? (fun b => b == 0) with
    | some offset =>
      if offset + read_head > max then
        decodeLoop max read_head true (overflow + 1) src
      else
        (.frame (src.take (offset + read_head)), ⟨max, 0, false, overflow⟩,
          src.drop (offset + read_head + 1))
    | none =>
      if src.length > max then
        decodeLoop max read_head true (overflow + 1) src
      else
        (.needMore, ⟨max, min (max + 1) src.length, false, overflow⟩, src)
termination_by (src.length, if discarding then 0 else 1)
decreasing_by
  · have hlen : (src.drop read_head).length > 0 := by
      cases hl : src.drop read_head with
      | nil => rw [hl] at hsep; simp [List.findIdx?] at hsep
      | cons a t => simp [hl]
    have h2 : (src.drop read_head).length = src.length - read_head :=
      List.length_drop read_head src
    have h3 : (src.drop (offset + read_head + 1)).length =
        src.length - (offset + read_head + 1) := List.length_drop _ _
    apply Prod.Lex.left
    omega
  · have h2 : (src.drop (min (max + 1) src.length)).length =
        src.length - min (max + 1) src.length := List.length_drop _ _
    have h3 := Nat.min_le_left (max + 1) src.length
    have h4 := Nat.min_le_right (max + 1) src.length
    apply Prod.Lex.left
    simp only [h2] at hrest ⊢
    omega
  · apply Prod.Lex.right
    simp_all
  · apply Prod.Lex.right
    simp_all

/-- `Decode::decode_eof`: run `decode`; if it produced nothing and the
buffer still holds bytes, hand all of them to `receive` as one final
frame and reset the read head. -/
def decode_eof (max read_head : Nat) (discarding : Bool) (overflow : Nat)
    (src : List Nat) : DecodeOut × DecodeState × List Nat :=
  match decodeLoop max read_head discarding overflow src with
  | (.frame f, st, rest) => (.frame f, st, rest)
  | (.needMore, st, rest) =>
    if rest.isEmpty then (.needMore, st, rest)
    else (.frame rest, { st with read_head := 0 }, [])

end Tcp

namespace Tcp

theorem findIdx?_nul_append_go (f rest : List Nat) (h : ∀ b ∈ f, b ≠ 0) :
    ∀ i : Nat, List.findIdx? (fun b => b == 0) (f ++ 0 :: rest) i = some (i + f.length) := by
  induction f with
  | nil =>
    intro i
    simp [List.findIdx?]
  | cons a t ih =>
    intro i
    have ha : (a == 0) = false := by
      simpa using h a (List.mem_cons_self a t)
    rw [List.cons_append, List.findIdx?, ha]
    simp only [Bool.false_eq_true, if_false]
    rw [ih (fun b hb => h b (List.mem_cons_of_mem a hb)) (i + 1)]
    simp
    omega

theorem findIdx?_nul_append (f rest : List Nat) (h : ∀ b ∈ f, b ≠ 0) :
    (f ++ 0 :: rest).findIdx? (fun b => b == 0) = some f.length := by
  have := findIdx?_nul_append_go f rest h 0
  simpa using this

theorem findIdx?_no_nul (l : List Nat) (h : ∀ b ∈ l, b ≠ 0) :
    l.findIdx? (fun b => b == 0) = none := by
  rw [List.findIdx?_eq_none_iff]
  intro x hx
  simpa using h x hx

end Tcp

namespace Tcp

theorem decodeLoop_found_big {max rh c off : Nat} {src : List Nat}
    (hsep : (src.drop rh).findIdx? (fun b => b == 0) = some off)
    (hbig : off + rh > max) :
    decodeLoop max rh false c src = decodeLoop max rh true (c + 1) src := by
  rw [decodeLoop]
  simp only [Bool.false_eq_true, if_false]
  split
  next offset heq =>
    rw [hsep] at heq
    obtain rfl : off = offset := by injection heq
    rw [if_pos hbig]
  next heq =>
    rw [hsep] at heq
    simp at heq

theorem decodeLoop_found_ok {max rh c off : Nat} {src : List Nat}
    (hsep : (src.drop rh).findIdx? (fun b => b == 0) = some off)
    (hok : ¬ off + rh > max) :
    decodeLoop max rh false c src =
      (.frame (src.take (off + rh)), ⟨max, 0, false, c⟩, src.drop (off + rh + 1)) := by
  rw [decodeLoop]
  simp only [Bool.false_eq_true, if_false]
  split
  next offset heq =>
    rw [hsep] at heq
    obtain rfl : off = offset := by injection heq
    rw [if_neg hok]
  next heq =>
    rw [hsep] at heq
    simp at heq

theorem decodeLoop_none_small {max rh c : Nat} {src : List Nat}
    (hsep : (src.drop rh).findIdx? (fun b => b == 0) = none)
    (hsmall : ¬ src.length > max) :
    decodeLoop max rh false c src =
      (.needMore, ⟨max, min (max + 1) src.length, false, c⟩, src) := by
  rw [decodeLoop]
  simp only [Bool.false_eq_true, if_false]
  split
  next offset heq =>
    rw [hsep] at heq
    simp at heq
  next heq =>
    rw [if_neg hsmall]

theorem decodeLoop_disc_found {max rh c off : Nat} {src : List Nat}
    (hsep : (src.drop rh).findIdx? (fun b => b == 0) = some off) :
    decodeLoop max rh true c src =
      decodeLoop max 0 false c (src.drop (off + rh + 1)) := by
  rw [decodeLoop]
  simp only [if_true]
  split
  next offset heq =>
    rw [hsep] at heq
    obtain rfl : off = offset := by injection heq
    rfl
  next heq =>
    rw [hsep] at heq
    simp at heq

theorem decodeLoop_disc_none_empty {max rh c : Nat} {src : List Nat}
    (hsep : (src.drop rh).findIdx? (fun b => b == 0) = none)
    (hempty : (src.drop (min (max + 1) src.length)).length = 0) :
    decodeLoop max rh true c src =
      (.needMore, ⟨max, 0, true, c⟩, src.drop (min (max + 1) src.length)) := by
  rw [decodeLoop]
  simp only [if_true]
  split
  next offset heq =>
    rw [hsep] at heq
    simp at heq
  next heq =>
    rw [dif_pos hempty]

end Tcp

open Tcp in
/-- C4: a NUL-terminated frame longer than `max_size_bytes` yields no
frame and bumps the overflow counter exactly once, and the splitter
recovers at that frame's NUL: the next NUL-terminated frame of length ≤
`max_size_bytes` in the same byte stream is handed to `receive` as
exactly the bytes before its NUL. -/
theorem spec_C4_tcp_overflow_recovery (max c : Nat) (f1 f2 : List Nat)
    (h1 : ∀ b ∈ f1, b ≠ 0) (hlen1 : f1.length > max)
    (h2 : ∀ b ∈ f2, b ≠ 0) (hlen2 : f2.length ≤ max) :
    decodeLoop max 0 false c (f1 ++ 0 :: []) =
      (.needMore, ⟨max, 0, false, c + 1⟩, []) ∧
    decodeLoop max 0 false c (f1 ++ 0 :: (f2 ++ [0])) =
      (.frame f2, ⟨max, 0, false, c + 1⟩, []) := by
  have hdrop : ∀ X : List Nat, (f1 ++ 0 :: X).drop (f1.length + 0 + 1) = X := by
    intro X
    rw [show f1 ++ 0 :: X = (f1 ++ [0]) ++ X by simp]
    exact List.drop_left' (by simp)
  have hnil : ∀ m c2, decodeLoop m 0 false c2 ([] : List Nat) =
      (.needMore, ⟨m, 0, false, c2⟩, []) := by
    intro m c2
    rw [decodeLoop_none_small (by simp [List.findIdx?]) (by simp)]
    simp
  constructor
  · have hs : ((f1 ++ 0 :: []).drop 0).findIdx? (fun b => b == 0) = some f1.length := by
      rw [List.drop_zero]
      exact findIdx?_nul_append f1 [] h1
    rw [decodeLoop_found_big hs (by omega), decodeLoop_disc_found hs, hdrop [], hnil]
  · have hs : ((f1 ++ 0 :: (f2 ++ [0])).drop 0).findIdx? (fun b => b == 0)
        = some f1.length := by
      rw [List.drop_zero]
      exact findIdx?_nul_append f1 (f2 ++ [0]) h1
    rw [decodeLoop_found_big hs (by omega), decodeLoop_disc_found hs, hdrop (f2 ++ [0])]
    have hs2 : ((f2 ++ [0]).drop 0).findIdx? (fun b => b == 0) = some f2.length := by
      rw [List.drop_zero]
      exact findIdx?_nul_append f2 [] h2
    rw [decodeLoop_found_ok hs2 (by omega)]
    rw [show f2.length + 0 = f2.length by omega]
    rw [List.take_left' (rfl : f2.length = f2.length)]
    rw [show f2.length + 1 = (f2 ++ [0]).length by simp]
    rw [List.drop_length]

open Tcp in
/-- C9: at connection EOF, a non-empty buffer whose bytes were never
followed by a NUL is handed to `receive` in full as one final frame (and
the read head resets); an empty buffer at EOF produces no final frame. -/
theorem spec_C9_decode_eof_trailing (max c rh : Nat) (disc : Bool) (src : List Nat)
    (h : ∀ b ∈ src, b ≠ 0) (hne : src ≠ []) (hlen : src.length ≤ max) :
    decode_eof max 0 false c src = (.frame src, ⟨max, 0, false, c⟩, []) ∧
    (decode_eof max rh disc c []).1 = .needMore := by
  constructor
  · have hs : (src.drop 0).findIdx? (fun b => b == 0) = none := by
      rw [List.drop_zero]
      exact findIdx?_no_nul src h
    rw [decode_eof, decodeLoop_none_small hs (by omega)]
    simp [List.isEmpty_iff, hne]
  · cases disc with
    | false =>
      have hs : (([] : List Nat).drop rh).findIdx? (fun b => b == 0) = none := by
        simp [List.findIdx?]
      rw [decode_eof, decodeLoop_none_small hs (by simp)]
      simp
    | true =>
      have hs : (([] : List Nat).drop rh).findIdx? (fun b => b == 0) = none := by
        simp [List.findIdx?]
      rw [decode_eof, decodeLoop_disc_none_empty hs (by simp)]
      simp

open Tcp in
/-- Witness for C4 with `max_size_bytes = 2`, an oversized frame
`[1, 2, 3]` and a small frame `[7]`. -/
theorem spec_C4_tcp_overflow_recovery_witness :
    (∀ b ∈ [1, 2, 3], b ≠ 0) ∧
    (decodeLoop 2 0 false 0 ([1, 2, 3] ++ 0 :: []) =
      (.needMore, ⟨2, 0, false, 1⟩, []) ∧
    decodeLoop 2 0 false 0 ([1, 2, 3] ++ 0 :: ([7] ++ [0])) =
      (.frame [7], ⟨2, 0, false, 1⟩, [])) :=
  ⟨by decide,
    spec_C4_tcp_overflow_recovery 2 0 [1, 2, 3] [7] (by decide) (by decide)
      (by decide) (by decide)⟩

open Tcp in
/-- Witness for C9 with the unterminated trailing frame `[72, 105]`. -/
theorem spec_C9_decode_eof_trailing_witness :
    (∀ b ∈ [72, 105], b ≠ 0) ∧
    (decode_eof 512 0 false 0 [72, 105] = (.frame [72, 105], ⟨512, 0, false, 0⟩, []) ∧
    (decode_eof 512 3 true 0 []).1 = .needMore) :=
  ⟨by decide,
    spec_C9_decode_eof_trailing 512 0 3 true [72, 105] (by decide) (by decide)
      (by decide)⟩

namespace Receive

/-- `MemRead::bytes` for `Message`: a direct borrow only for a
single-chunk, uncompressed message. -/
def Message.bytes : Message → Option Bytes
  | .single none b => some b
  | _ => none

/-- `Message::compression`: stored tag for a single-chunk message, the
first chunk's magic bytes for a chunked one. -/
def Message.compression : Message → Option Compression
  | .single c _ => c
  | .chunked cs =>
    (cs.head?.bind (fun c => peekMagicBytes c)).bind
      (fun m => Compression.detect m.1 m.2)

/-- `ChunkRead`: the cursor state of the plain (uncompressed) reader over
a message. -/
structure ChunkRead where
  chunk : Nat
  cursor : Nat
  msg : Message

/-- The chunked arm of `ChunkRead::read`: the `while b.len() > 0` copy
loop, returning the bytes copied out and the final (chunk, cursor). -/
def readChunked (chunks : List Bytes) (chunkIdx cursor n : Nat) :
    Bytes × Nat × Nat :=
  if n = 0 then ([], chunkIdx, cursor)
  else
    match hc : chunks[chunkIdx]? with
    | none => ([], chunkIdx, cursor)
    | some cbytes =>
      let readable := cbytes.drop cursor
      let rd := min readable.length n
      if rd = readable.length then
        let r := readChunked chunks (chunkIdx + 1) 0 (n - rd)
        (readable.take rd ++ r.1, r.2)
      else
        (readable.take rd, chunkIdx, cursor + rd)
termination_by chunks.length - chunkIdx
decreasing_by
  have hlt : chunkIdx < chunks.length := by
    by_contra hcon
    push_neg at hcon
    rw [List.getElem?_eq_none hcon] at hc
    cases hc
  omega

/-- `ChunkRead::read` with an `n`-byte output buffer: the bytes read and
the advanced reader. -/
def ChunkRead.read (r : ChunkRead) (n : Nat) : Bytes × ChunkRead :=
  match r.msg with
  | .single _ bytes =>
    if n = 0 then ([], r)
    else
      let readable := bytes.drop r.cursor
      let rd := min readable.length n
      (readable.take rd, { r with cursor := r.cursor + rd })
  | .chunked chunks =>
    let t := readChunked chunks r.chunk r.cursor n
    (t.1, { r with chunk := t.2.1, cursor := t.2.2 })

/-- The total payload length of a message. -/
def Message.totalLen : Message → Nat
  | .single _ b => b.length
  | .chunked cs => (cs.map List.length).sum

/-- The `read_to_end` driver: read `k` bytes at a time until a read
returns no bytes.  The fuel is set high enough that it never runs out
(each non-final read returns at least one byte). -/
def readToEndAux : Nat → ChunkRead → Nat → Bytes
  | 0, _, _ => []
  | fuel + 1, r, k =>
    let t := r.read k
    if t.1.isEmpty then [] else t.1 ++ readToEndAux fuel t.2 k

/-- Read the whole content of a message through its plain reader. -/
def Message.readToEnd (m : Message) (k : Nat) : Bytes :=
  readToEndAux (m.totalLen + 1) ⟨0, 0, m⟩ k

/-- The bytes that remain to be read from the chunked arm at position
(chunkIdx, cursor). -/
def remainingChunks (chunks : List Bytes) (chunkIdx cursor : Nat) : Bytes :=
  match chunks.drop chunkIdx with
  | [] => []
  | c :: rest => c.drop cursor ++ rest.flatten

/-- The bytes that remain to be read from a reader. -/
def ChunkRead.remaining (r : ChunkRead) : Bytes :=
  match r.msg with
  | .single _ b => b.drop r.cursor
  | .chunked cs => remainingChunks cs r.chunk r.cursor

end Receive

namespace Receive

theorem remainingChunks_zero (chunks : List Bytes) (idx : Nat) :
    remainingChunks chunks idx 0 = (chunks.drop idx).flatten := by
  rw [remainingChunks]
  cases h : chunks.drop idx with
  | nil => simp
  | cons c rest => simp

theorem readChunked_spec_aux (chunks : List Bytes) :
    ∀ (fuel chunkIdx : Nat), chunks.length - chunkIdx ≤ fuel →
      ∀ cursor n,
        (readChunked chunks chunkIdx cursor n).1 =
          (remainingChunks chunks chunkIdx cursor).take n ∧
        remainingChunks chunks (readChunked chunks chunkIdx cursor n).2.1
            (readChunked chunks chunkIdx cursor n).2.2 =
          (remainingChunks chunks chunkIdx cursor).drop n := by
  intro fuel
  induction fuel with
  | zero =>
    intro chunkIdx hle cursor n
    have hge : chunks.length ≤ chunkIdx := by omega
    have hrem : remainingChunks chunks chunkIdx cursor = [] := by
      rw [remainingChunks, List.drop_eq_nil_of_le hge]
    rw [readChunked]
    by_cases hn : n = 0
    · simp [hn, hrem]
    · rw [if_neg hn]
      dsimp only
      split
      next hc => simp [hrem]
      next cbytes hc =>
        rw [List.getElem?_eq_none hge] at hc
        cases hc
  | succ f ihf =>
    intro chunkIdx hle cursor n
    rw [readChunked]
    by_cases hn : n = 0
    · simp [hn]
    · rw [if_neg hn]
      dsimp only
      split
      next hc =>
        have hge : chunks.length ≤ chunkIdx := by
          by_contra hcon
          push_neg at hcon
          rw [List.getElem?_eq_getElem hcon] at hc
          cases hc
        have hrem : remainingChunks chunks chunkIdx cursor = [] := by
          rw [remainingChunks, List.drop_eq_nil_of_le hge]
        simp [hrem]
      next cbytes hc =>
        have hlt : chunkIdx < chunks.length := by
          by_contra hcon
          push_neg at hcon
          rw [List.getElem?_eq_none hcon] at hc
          cases hc
        have hcb : chunks[chunkIdx] = cbytes := by
          rw [List.getElem?_eq_getElem hlt] at hc
          injection hc
        have hdropc : chunks.drop chunkIdx = cbytes :: chunks.drop (chunkIdx + 1) := by
          rw [List.drop_eq_getElem_cons hlt, hcb]
        have hrem : remainingChunks chunks chunkIdx cursor =
            cbytes.drop cursor ++ (chunks.drop (chunkIdx + 1)).flatten := by
          rw [remainingChunks, hdropc]
        by_cases hrd : min (cbytes.drop cursor).length n = (cbytes.drop cursor).length
        · rw [if_pos hrd]
          have hle2 : (cbytes.drop cursor).length ≤ n := by omega
          obtain ⟨ih1, ih2⟩ := ihf (chunkIdx + 1) (by omega) 0
            (n - min (cbytes.drop cursor).length n)
          rw [remainingChunks_zero] at ih1 ih2
          constructor
          · dsimp only
            rw [ih1, hrem, List.take_append_eq_append_take,
              List.take_of_length_le hle2, hrd, List.take_length]
          · dsimp only
            rw [ih2, hrem, List.drop_append_eq_append_drop,
              List.drop_eq_nil_of_le hle2, hrd]
            simp
        · rw [if_neg hrd]
          have hmin : min (cbytes.drop cursor).length n = n := by omega
          have hzero : n - (cbytes.drop cursor).length = 0 := by omega
          have hrem2 : remainingChunks chunks chunkIdx (cursor + n) =
              cbytes.drop (cursor + n) ++ (chunks.drop (chunkIdx + 1)).flatten := by
            rw [remainingChunks, hdropc]
          constructor
          · dsimp only
            rw [hrem, hmin, List.take_append_eq_append_take, hzero]
            simp
          · dsimp only
            rw [hmin, hrem2, hrem, List.drop_append_eq_append_drop, hzero]
            simp

theorem readChunked_spec (chunks : List Bytes) (chunkIdx cursor n : Nat) :
    (readChunked chunks chunkIdx cursor n).1 =
      (remainingChunks chunks chunkIdx cursor).take n ∧
    remainingChunks chunks (readChunked chunks chunkIdx cursor n).2.1
        (readChunked chunks chunkIdx cursor n).2.2 =
      (remainingChunks chunks chunkIdx cursor).drop n :=
  readChunked_spec_aux chunks (chunks.length - chunkIdx) chunkIdx (le_refl _) cursor n

end Receive

namespace Receive

theorem take_min_eq_take (l : List Nat) (k : Nat) :
    l.take (min l.length k) = l.take k := by
  by_cases h : k ≤ l.length
  · rw [min_eq_right h]
  · rw [min_eq_left (by omega), List.take_length, List.take_of_length_le (by omega)]

theorem ChunkRead.read_spec (r : ChunkRead) (k : Nat) (hk : 1 ≤ k) :
    (r.read k).1 = r.remaining.take k ∧
    (r.read k).2.remaining = r.remaining.drop k := by
  obtain ⟨ci, cu, msg⟩ := r
  cases msg with
  | single c b =>
    rw [ChunkRead.read]
    dsimp only
    rw [if_neg (by omega)]
    constructor
    · dsimp only [ChunkRead.remaining]
      exact take_min_eq_take (b.drop cu) k
    · dsimp only [ChunkRead.remaining]
      by_cases h : k ≤ (b.drop cu).length
      · rw [min_eq_right h, List.drop_drop]
      · rw [min_eq_left (by omega)]
        have e1 : List.drop (cu + (b.drop cu).length) b = [] :=
          List.drop_eq_nil_of_le (by rw [List.length_drop]; omega)
        have e2 : List.drop k (b.drop cu) = [] :=
          List.drop_eq_nil_of_le (by omega)
        rw [e1, e2]
  | chunked chunks =>
    obtain ⟨h1, h2⟩ := readChunked_spec chunks ci cu k
    rw [ChunkRead.read]
    dsimp only
    exact ⟨h1, h2⟩

end Receive

namespace Receive

theorem readToEndAux_drain :
    ∀ (fuel : Nat) (r : ChunkRead) (k : Nat), 1 ≤ k →
      r.remaining.length < fuel → readToEndAux fuel r k = r.remaining := by
  intro fuel
  induction fuel with
  | zero =>
    intro r k _ h
    omega
  | succ f ih =>
    intro r k hk h
    obtain ⟨h1, h2⟩ := ChunkRead.read_spec r k hk
    rw [readToEndAux]
    by_cases hemp : (r.read k).1.isEmpty
    · rw [if_pos hemp]
      rw [h1, List.isEmpty_iff, List.take_eq_nil_iff] at hemp
      rcases hemp with h0 | h0
      · omega
      · rw [h0]
    · rw [if_neg hemp]
      have hne : r.remaining ≠ [] := by
        intro h0
        rw [h1, h0] at hemp
        simp at hemp
      have hlen : (r.read k).2.remaining.length < f := by
        rw [h2, List.length_drop]
        have : 1 ≤ r.remaining.length := by
          cases hr : r.remaining with
          | nil => exact absurd hr hne
          | cons a t => simp
        omega
      rw [ih (r.read k).2 k hk hlen, h1, h2, List.take_append_drop]

end Receive

open Receive in
/-- C8: `bytes()` and `into_reader()` return byte-identical content.
Whenever `bytes()` returns `Some(b)` (single-chunk, compression `None`),
reading the reader to the end — with any per-call buffer size k ≥ 1 —
yields exactly `b`; for a chunked uncompressed message the reader yields
the concatenation of the stored chunk payloads (which reassembly stores
in ascending sequence order). -/
theorem spec_C8_bytes_reader_equiv :
    (∀ (m : Message) (b : Bytes) (k : Nat),
      m.bytes = some b → 1 ≤ k → m.readToEnd k = b) ∧
    (∀ (chunks : List Bytes) (k : Nat), 1 ≤ k →
      (Message.chunked chunks).compression = none →
      (Message.chunked chunks).readToEnd k = chunks.flatten) := by
  constructor
  · intro m b k hb hk
    have hm : m = .single none b := by
      cases m with
      | single c bb =>
        cases c with
        | none =>
          rw [Message.bytes] at hb
          cases hb
          rfl
        | some cc => simp [Message.bytes] at hb
      | chunked cs => simp [Message.bytes] at hb
    subst hm
    rw [Message.readToEnd]
    have hrem : (ChunkRead.mk 0 0 (.single none b)).remaining = b := rfl
    rw [readToEndAux_drain _ _ k hk (by rw [hrem, Message.totalLen]; omega), hrem]
  · intro chunks k hk _
    rw [Message.readToEnd]
    have hrem : (ChunkRead.mk 0 0 (.chunked chunks)).remaining = chunks.flatten := by
      show remainingChunks chunks 0 0 = chunks.flatten
      rw [remainingChunks_zero, List.drop_zero]
    rw [readToEndAux_drain _ _ k hk ?_, hrem]
    rw [hrem, Message.totalLen, List.length_flatten]
    omega

open Receive in
/-- Witness for C8: a single-chunk message read with a 3-byte buffer and
a two-chunk message read byte-by-byte. -/
theorem spec_C8_bytes_reader_equiv_witness :
    ((Message.single none [72, 105]).bytes = some [72, 105] ∧
      (Message.single none [72, 105]).readToEnd 3 = [72, 105]) ∧
    ((Message.chunked [[72], [105, 33]]).compression = none ∧
      (Message.chunked [[72], [105, 33]]).readToEnd 1 = [72, 105, 33]) :=
  ⟨⟨rfl, spec_C8_bytes_reader_equiv.1 (Message.single none [72, 105]) [72, 105] 3 rfl
      (by omega)⟩,
   ⟨rfl, spec_C8_bytes_reader_equiv.2 [[72], [105, 33]] 1 (by omega) rfl⟩⟩
